import Mathlib

/-!
Shallow embedding of createrepo_c's `src/helpers.c`: the retention/migration
logic for old repository metadata.  Filenames are lists of characters;
the filesystem state visible to each operation (directory listing with
stat results, destination files, per-file success of remove/copy) is passed
explicitly, and every filesystem access the C code performs is recorded in
an operation trace.
-/

deriving instance DecidableEq for Except

namespace CreaterepoHelpers

/-- A filename or path, as a list of characters (C strings are byte strings;
all names involved here are ASCII). -/
abbrev Name := List Char

/-- Error domain of the helpers (`CR_HELPER_ERROR` with codes `CRE_BADARG`,
`CRE_IO`); an error value models the C code setting the `GError` out-param. -/
inductive HelperError
  | badArg
  | io
deriving DecidableEq

/-- Filesystem operations performed by the C code, recorded as a trace:
`g_dir_open`, `stat`, `g_remove`, `cr_cp`, `g_file_test` on a destination
file, `g_file_test` on the old repository root, `cr_xml_parse_repomd`. -/
inductive FsOp
  | openDir
  | statFile (name : Name)
  | removeFile (name : Name)
  | copyFile (name : Name)
  | testDestExists (name : Name)
  | testOldRepoExists
  | parseRepomd
deriving DecidableEq

/-- The six metadata families distinguished by `cr_repodata_blacklist_classic`
(the six `GSList`s `pri_lst`, `pri_db_lst`, `fil_lst`, `fil_db_lst`,
`oth_lst`, `oth_db_lst`). -/
inductive Family
  | priXml
  | priDb
  | filXml
  | filDb
  | othXml
  | othDb
deriving DecidableEq

/-- The suffix marker tested for each family (helpers.c lines 151-162). -/
def familyMarker : Family → Name
  | .priXml => "primary.xml".data
  | .priDb  => "primary.sqlite".data
  | .filXml => "filelists.xml".data
  | .filDb  => "filelists.sqlite".data
  | .othXml => "other.xml".data
  | .othDb  => "other.sqlite".data

/-- The marker with its final extension removed: what is left of the marker
after `strrchr`-based suffix stripping of a filename that ends with it. -/
def familyBase : Family → Name
  | .priXml => "primary".data
  | .priDb  => "primary".data
  | .filXml => "filelists".data
  | .filDb  => "filelists".data
  | .othXml => "other".data
  | .othDb  => "other".data

/-- The final extension of each family marker (after the last dot). -/
def familyExt : Family → Name
  | .priXml => "xml".data
  | .priDb  => "sqlite".data
  | .filXml => "xml".data
  | .filDb  => "sqlite".data
  | .othXml => "xml".data
  | .othDb  => "sqlite".data

/-- `g_str_has_suffix (s, pat)`: whether `pat` is a suffix of `s`. -/
def gStrHasSuffix (s pat : Name) : Bool :=
  decide (pat <:+ s)

/-- The filename with everything from the last '.' on removed
(helpers.c lines 144-147: `strrchr` + `g_strndup`); `none` when the
name contains no '.' (such a file is skipped, line 146). -/
def stripLastExt (s : Name) : Option Name :=
  match s.reverse.dropWhile (fun c => c ≠ '.') with
  | [] => none
  | _ :: rest => some rest.reverse

/-- Classification of one directory entry into a family: strip the last
extension, then run the suffix-test chain of helpers.c lines 151-163
in source order. -/
def classify (filename : Name) : Option Family :=
  match stripLastExt filename with
  | none => none
  | some base =>
    if gStrHasSuffix base "primary.xml".data then some .priXml
    else if gStrHasSuffix base "primary.sqlite".data then some .priDb
    else if gStrHasSuffix base "filelists.xml".data then some .filXml
    else if gStrHasSuffix base "filelists.sqlite".data then some .filDb
    else if gStrHasSuffix base "other.xml".data then some .othXml
    else if gStrHasSuffix base "other.sqlite".data then some .othDb
    else none

/-- The `OldFile` struct of helpers.c.  The C code stores
`dirname ++ filename` in `path` and later takes `g_path_get_basename`
of it; since the directory name ends in '/' and directory entries contain
no '/', that round trip returns the bare filename, which is what we store. -/
structure OldFile where
  mtime : Int
  path : Name
deriving DecidableEq

/-- One entry of a directory listing: its name and the result of `stat`
on it (`none` models a failing `stat` call). -/
structure DirEntry where
  name : Name
  statResult : Option Int
deriving DecidableEq

/-- The modification time used by `cr_stat_and_insert`: on stat failure the
C code substitutes the sentinel `buf.st_mtime = 1` (helpers.c line 66). -/
def DirEntry.mtime (e : DirEntry) : Int :=
  e.statResult.getD 1

/-- `cr_cmp_old_repodata_files` (helpers.c lines 49-57): positive when the
first file is older, so that sorted insertion puts more recent files first. -/
def cr_cmp_old_repodata_files (a b : OldFile) : Int :=
  if a.mtime < b.mtime then 1
  else if a.mtime > b.mtime then -1
  else 0

/-- `g_slist_insert_sorted` specialised to `cr_cmp_old_repodata_files`:
walk while the new element compares greater than the current one and insert
before the first element comparing less-or-equal (glib semantics). -/
def insertSortedOldFile (f : OldFile) : List OldFile → List OldFile
  | [] => [f]
  | x :: xs =>
    if cr_cmp_old_repodata_files f x > 0 then x :: insertSortedOldFile f xs
    else f :: x :: xs

/-- `cr_stat_and_insert` (helpers.c lines 59-71): build an `OldFile` from a
directory entry and insert it into the (mtime-descending) family list. -/
def cr_stat_and_insert (e : DirEntry) (l : List OldFile) : List OldFile :=
  insertSortedOldFile ⟨e.mtime, e.name⟩ l

/-- The sorted list accumulated for one family by the directory-scan loop of
helpers.c lines 142-165 (each entry is routed to the list of the family it
classifies into, so the six lists are built independently). -/
def scanFamily (entries : List DirEntry) (fam : Family) : List OldFile :=
  entries.foldl
    (fun acc e => if classify e.name = some fam then cr_stat_and_insert e acc else acc)
    []

/-- The fixed order in which the six family lists are drained into the
blacklist (the `lists[]` array, helpers.c lines 104-106). -/
def familiesOrder : List Family :=
  [.priXml, .priDb, .filXml, .filDb, .othXml, .othDb]

/-- Inner loop of helpers.c lines 171-176: walk from `g_slist_nth(list,
retain)` on and prepend each file's basename to the blacklist. -/
def appendDropped (retain : Nat) (lst : List OldFile) (blacklist : List Name) : List Name :=
  (lst.drop retain).foldl (fun bl of => of.path :: bl) blacklist

/-- The blacklist built by the family loop of helpers.c lines 170-179 for a
directory listing, for a non-negative retain count. -/
def classicBlacklistCore (entries : List DirEntry) (retain : Nat) : List Name :=
  familiesOrder.foldl (fun bl fam => appendDropped retain (scanFamily entries fam) bl) []

/-- A directory as one operation sees it: whether `g_dir_open` succeeds on
it, and the listing returned by `g_dir_read_name` (with stat results). -/
structure RepoDir where
  openOk : Bool
  entries : List DirEntry
deriving DecidableEq

/-- `cr_repodata_blacklist_classic` (helpers.c lines 76-182) together with
the trace of filesystem operations it performs: short-circuit on
`retain == -1`, reject other negative counts, open the directory (an open
failure is a hard `CRE_IO` error), stat every classified entry, and emit
the per-family blacklist. -/
def cr_repodata_blacklist_classic (d : RepoDir) (retain : Int) :
    Except HelperError (List Name) × List FsOp :=
  if retain = -1 then (.ok [], [])
  else if retain < 0 then (.error .badArg, [])
  else if d.openOk then
    (.ok (classicBlacklistCore d.entries retain.toNat),
     .openDir ::
       (d.entries.filter (fun e => (classify e.name).isSome)).map
         (fun e => .statFile e.name))
  else (.error .io, [.openDir])

/-- `g_path_get_basename`: strip trailing slashes, then keep everything
after the last remaining '/'; an empty or all-slash path yields ".". -/
def gPathGetBasename (p : Name) : Name :=
  let stripped := (p.reverse.dropWhile (fun c => c = '/')).reverse
  if stripped.isEmpty then ['.']
  else (stripped.reverse.takeWhile (fun c => c ≠ '/')).reverse

/-- One record of a parsed repomd.xml (`cr_RepomdRecord`): the fields the
blacklist code reads.  `none` models a NULL pointer. -/
structure RepomdRecord where
  location_href : Option Name
  location_base : Option Name
deriving DecidableEq

/-- A parsed repomd.xml (`cr_Repomd`): its record list. -/
structure Repomd where
  records : List RepomdRecord
deriving DecidableEq

/-- The record list the manifest-mode selector ends up iterating over: on a
parse failure (`none`) the C code logs, replaces the repomd with a fresh
empty one and continues, which yields an empty record list. -/
def parsedRecords (parseResult : Option Repomd) : List RepomdRecord :=
  match parseResult with
  | some r => r.records
  | none => []

/-- One iteration of the record loop of helpers.c lines 229-247: skip
records without `location_href` (warning), skip records with a
`location_base` (debug log), otherwise prepend
`g_path_get_basename(location_href)` to the blacklist. -/
def repomdRecordStep (bl : List Name) (rec : RepomdRecord) : List Name :=
  match rec.location_href with
  | none => bl
  | some href =>
    match rec.location_base with
    | some _ => bl
    | none => gPathGetBasename href :: bl

/-- The name a single manifest record contributes to the blacklist, if any:
the basename of its location reference, for records that have one and carry
no base-location override. -/
def recordBasename? (rec : RepomdRecord) : Option Name :=
  match rec.location_href, rec.location_base with
  | some href, none => some (gPathGetBasename href)
  | _, _ => none

/-- `cr_repodata_blacklist` (helpers.c lines 189-251), manifest mode. -/
def cr_repodata_blacklist (parseResult : Option Repomd) (retain : Int) :
    Except HelperError (List Name) × List FsOp :=
  if retain = -1 ∨ retain > 0 then (.ok [], [])
  else if retain < 0 then (.error .badArg, [])
  else
    (.ok ((parsedRecords parseResult).foldl repomdRecordStep []),
     [.parseRepomd])

/-- The fixed manifest filename "repomd.xml". -/
def repomdName : Name := "repomd.xml".data

/-- Association-list lookup by name (first binding wins), modelling a
destination directory as a map from filename to file content. -/
def lookupName (nm : Name) : List (Name × Nat) → Option Nat
  | [] => none
  | (k, v) :: rest => if k = nm then some v else lookupName nm rest

/-- The filesystem state `cr_remove_metadata_classic` operates on: the
`repodata/` directory (opened twice: once by the selector, once by the
removal loop) and, for each filename, whether `g_remove` would succeed. -/
structure PruneFS where
  repodataDir : RepoDir
  removeOk : Name → Bool

/-- Observable outcome of a pruner run: the result (an error value models
the `GError` out-param being set), the directory contents afterwards, and
the operation trace. -/
structure PruneOut where
  rc : Except HelperError Unit
  entriesAfter : List DirEntry
  trace : List FsOp

/-- The blacklist the pruner works with: the classic selection plus the
unconditional `g_slist_prepend(blacklist, "repomd.xml")` of helpers.c
line 275. -/
def prunerBlacklist (d : RepoDir) (retain : Int) : Except HelperError (List Name) :=
  match (cr_repodata_blacklist_classic d retain).1 with
  | .error e => .error e
  | .ok bl => .ok (repomdName :: bl)

/-- One iteration of the removal loop of helpers.c lines 288-305: skip
non-blacklisted entries; attempt `g_remove` on blacklisted ones, keeping the
file (and logging a warning) when the removal fails. -/
def pruneStep (bl : List Name) (removeOk : Name → Bool)
    (st : List DirEntry × List FsOp) (e : DirEntry) : List DirEntry × List FsOp :=
  if e.name ∈ bl then
    (if removeOk e.name then st.1 else st.1 ++ [e], st.2 ++ [FsOp.removeFile e.name])
  else (st.1 ++ [e], st.2)

/-- `cr_remove_metadata_classic` (helpers.c lines 253-315): build the
blacklist (classic mode, plus repomd.xml), open the directory (failure is
`CRE_IO`), then best-effort remove every blacklisted entry. -/
def cr_remove_metadata_classic (fs : PruneFS) (retain : Int) : PruneOut :=
  match prunerBlacklist fs.repodataDir retain with
  | .error e =>
    ⟨.error e, fs.repodataDir.entries,
     (cr_repodata_blacklist_classic fs.repodataDir retain).2⟩
  | .ok bl =>
    if fs.repodataDir.openOk then
      ⟨.ok (),
       (fs.repodataDir.entries.foldl (pruneStep bl fs.removeOk) ([], [])).1,
       (cr_repodata_blacklist_classic fs.repodataDir retain).2 ++ [FsOp.openDir]
         ++ (fs.repodataDir.entries.foldl (pruneStep bl fs.removeOk) ([], [])).2⟩
    else
      ⟨.error .io, fs.repodataDir.entries,
       (cr_repodata_blacklist_classic fs.repodataDir retain).2 ++ [FsOp.openDir]⟩

/-- The filesystem state `cr_old_metadata_retention` operates on: whether
the old repository root exists, its directory, the destination directory
contents (name-to-content map), per-file success of `cr_cp`, and the
content that copying a given old file would deposit. -/
structure MigrateFS where
  oldExists : Bool
  oldDir : RepoDir
  newFiles : List (Name × Nat)
  copyOk : Name → Bool
  oldContent : Name → Nat

/-- Observable outcome of a migrator run. -/
structure MigrateOut where
  ret : Except HelperError Unit
  newFilesAfter : List (Name × Nat)
  trace : List FsOp

/-- The blacklist the migrator works with: the classic selection
(`compatibility_mode` is fixed to 1 at helpers.c line 328) plus the
unconditional repomd.xml prepend of line 346. -/
def migratorBlacklist (d : RepoDir) (retain : Int) : Except HelperError (List Name) :=
  match (cr_repodata_blacklist_classic d retain).1 with
  | .error e => .error e
  | .ok bl => .ok (repomdName :: bl)

/-- One iteration of the copy loop of helpers.c lines 362-397: skip
blacklisted entries; skip (after the existence test) entries whose name is
already present at the destination; otherwise attempt the copy, logging a
warning on failure and continuing either way. -/
def migStep (bl : List Name) (copyOk : Name → Bool) (content : Name → Nat)
    (st : List (Name × Nat) × List FsOp) (e : DirEntry) :
    List (Name × Nat) × List FsOp :=
  if e.name ∈ bl then st
  else if (lookupName e.name st.1).isSome then
    (st.1, st.2 ++ [FsOp.testDestExists e.name])
  else if copyOk e.name then
    (st.1 ++ [(e.name, content e.name)],
     st.2 ++ [FsOp.testDestExists e.name, FsOp.copyFile e.name])
  else (st.1, st.2 ++ [FsOp.testDestExists e.name, FsOp.copyFile e.name])

/-- `cr_old_metadata_retention` (helpers.c lines 317-407): succeed trivially
when the old repository does not exist; otherwise build the blacklist
(classic mode plus repomd.xml), open the old directory (failure is
`CRE_IO`), and copy forward every non-blacklisted entry that is not already
present at the destination. -/
def cr_old_metadata_retention (fs : MigrateFS) (retain : Int) : MigrateOut :=
  if fs.oldExists = false then ⟨.ok (), fs.newFiles, [FsOp.testOldRepoExists]⟩
  else
    match migratorBlacklist fs.oldDir retain with
    | .error e =>
      ⟨.error e, fs.newFiles,
       FsOp.testOldRepoExists :: (cr_repodata_blacklist_classic fs.oldDir retain).2⟩
    | .ok bl =>
      if fs.oldDir.openOk then
        ⟨.ok (),
         (fs.oldDir.entries.foldl (migStep bl fs.copyOk fs.oldContent)
           (fs.newFiles, [])).1,
         FsOp.testOldRepoExists :: (cr_repodata_blacklist_classic fs.oldDir retain).2
           ++ [FsOp.openDir]
           ++ (fs.oldDir.entries.foldl (migStep bl fs.copyOk fs.oldContent)
               (fs.newFiles, [])).2⟩
      else
        ⟨.error .io, fs.newFiles,
         FsOp.testOldRepoExists :: (cr_repodata_blacklist_classic fs.oldDir retain).2
           ++ [FsOp.openDir]⟩

/-- The names on which `g_remove` was attempted, read off a trace. -/
def removeAttempts (tr : List FsOp) : List Name :=
  tr.filterMap (fun op => match op with | .removeFile nm => some nm | _ => none)

/-- The names on which `cr_cp` was attempted, read off a trace. -/
def copyAttempts (tr : List FsOp) : List Name :=
  tr.filterMap (fun op => match op with | .copyFile nm => some nm | _ => none)

/-- The `OldFile` a directory entry turns into when routed to a family list. -/
def toOldFile (e : DirEntry) : OldFile :=
  ⟨e.mtime, e.name⟩

/-- Sorted by modification time, most recent first (the invariant of the six
family lists). -/
def sortedDesc (l : List OldFile) : Prop :=
  l.Pairwise (fun a b => b.mtime ≤ a.mtime)

/-- The names one family contributes to the classic blacklist: basenames of
the files beyond the first `retain` of its mtime-descending list. -/
def famBlock (entries : List DirEntry) (retain : Nat) (fam : Family) : List Name :=
  ((scanFamily entries fam).drop retain).map OldFile.path

/-- The scenario directory of spec section 8: `a1-primary.xml` (mtime 1),
`a2-primary.xml` (mtime 2), `a3-primary.xml.gz` (mtime 3). -/
def dirScenario : RepoDir :=
  ⟨true,
   [⟨"a1-primary.xml".data, some 1⟩,
    ⟨"a2-primary.xml".data, some 2⟩,
    ⟨"a3-primary.xml.gz".data, some 3⟩]⟩

/-- A small concrete repodata directory: two primary-xml generations and the
manifest. -/
def dirTwoGen : RepoDir :=
  ⟨true,
   [⟨"x-primary.xml.gz".data, some 5⟩,
    ⟨"y-primary.xml.gz".data, some 9⟩,
    ⟨"repomd.xml".data, some 3⟩]⟩

/-- A pruner state over `dirTwoGen` in which every removal succeeds. -/
def pruneFS1 : PruneFS :=
  ⟨dirTwoGen, fun _ => true⟩

/-- A pruner state over `dirTwoGen` in which removing `x-primary.xml.gz`
fails. -/
def pruneFS2 : PruneFS :=
  ⟨dirTwoGen, fun nm => ! decide (nm = "x-primary.xml.gz".data)⟩

/-- A migrator state whose old repository root does not exist. -/
def mfsAbsent : MigrateFS :=
  ⟨false, ⟨true, []⟩, [], fun _ => true, fun _ => 0⟩

/-- A migrator state over `dirTwoGen` with one file already present at the
destination. -/
def migFS1 : MigrateFS :=
  ⟨true, dirTwoGen, [("z-other.xml.gz".data, 7)], fun _ => true, fun _ => 0⟩

/-- A migrator state over a directory that also contains a copy of a file
already present at the destination, with the copy of `y-primary.xml.gz`
failing. -/
def migFS2 : MigrateFS :=
  ⟨true,
   ⟨true,
    [⟨"x-primary.xml.gz".data, some 5⟩,
     ⟨"y-primary.xml.gz".data, some 9⟩,
     ⟨"z-other.xml.gz".data, some 2⟩,
     ⟨"repomd.xml".data, some 3⟩]⟩,
   [("z-other.xml.gz".data, 7)],
   fun nm => ! decide (nm = "y-primary.xml.gz".data),
   fun _ => 0⟩

/-! ### Basic list lemmas -/

theorem foldl_prepend_path (l : List OldFile) (acc : List Name) :
    l.foldl (fun bl of => of.path :: bl) acc = (l.map OldFile.path).reverse ++ acc := by
  induction l generalizing acc with
  | nil => simp
  | cons x xs ih => simp [ih]

theorem dropWhile_append_all {p : Char → Bool} {l₁ : List Char} (l₂ : List Char)
    (h : ∀ c ∈ l₁, p c = true) :
    (l₁ ++ l₂).dropWhile p = l₂.dropWhile p := by
  induction l₁ with
  | nil => rfl
  | cons c cs ih =>
    rw [List.cons_append, List.dropWhile_cons, if_pos (h c (List.mem_cons_self c cs))]
    exact ih fun x hx => h x (List.mem_cons_of_mem c hx)

theorem lookupName_append_some {nm : Name} {l₁ : List (Name × Nat)} {c : Nat}
    (l₂ : List (Name × Nat)) (h : lookupName nm l₁ = some c) :
    lookupName nm (l₁ ++ l₂) = some c := by
  induction l₁ with
  | nil => simp [lookupName] at h
  | cons kv rest ih =>
    rw [List.cons_append]
    rw [lookupName] at h ⊢
    split at h
    · next hk => rw [if_pos hk]; exact h
    · next hk => rw [if_neg hk]; exact ih h

theorem lookupName_append_single_ne {nm k : Name} (v : Nat) (l : List (Name × Nat))
    (h : k ≠ nm) :
    lookupName nm (l ++ [(k, v)]) = lookupName nm l := by
  induction l with
  | nil => simp [lookupName, h]
  | cons kv rest ih =>
    rw [List.cons_append, lookupName, lookupName]
    split
    · rfl
    · exact ih

/-! ### Suffix and classification lemmas -/

theorem suffix_append_cases {m base stem : Name} (h : m <:+ stem ++ base) :
    m <:+ base ∨ base <:+ m :=
  List.suffix_or_suffix_of_suffix h (List.suffix_append stem base)

theorem gStrHasSuffix_false_of (pat base stem : Name)
    (h1 : ¬ pat <:+ base) (h2 : ¬ base <:+ pat) :
    gStrHasSuffix (stem ++ base) pat = false := by
  simp only [gStrHasSuffix, decide_eq_false_iff_not]
  intro hcontra
  rcases suffix_append_cases hcontra with h | h
  · exact h1 h
  · exact h2 h

theorem gStrHasSuffix_append_self (stem pat : Name) :
    gStrHasSuffix (stem ++ pat) pat = true := by
  simp only [gStrHasSuffix, decide_eq_true_eq]
  exact List.suffix_append stem pat

theorem stripLastExt_append (stem base : Name) {ext : Name} (hext : '.' ∉ ext) :
    stripLastExt (stem ++ base ++ '.' :: ext) = some (stem ++ base) := by
  unfold stripLastExt
  have hrev : (stem ++ base ++ '.' :: ext).reverse
      = ext.reverse ++ '.' :: (stem ++ base).reverse := by
    simp [List.reverse_append, List.append_assoc]
  rw [hrev, dropWhile_append_all _ ?hall]
  case hall =>
    intro c hc
    have hc' : c ∈ ext := List.mem_reverse.mp hc
    simp only [decide_eq_true_eq]
    intro hEq
    exact hext (hEq ▸ hc')
  simp [List.dropWhile_cons]

theorem familyMarker_eq (fam : Family) :
    familyMarker fam = familyBase fam ++ '.' :: familyExt fam := by
  cases fam <;> decide

theorem familyExt_no_dot (fam : Family) : '.' ∉ familyExt fam := by
  cases fam <;> decide

theorem classify_of_base_none (s base : Name) (hstrip : stripLastExt s = some base)
    (h1 : gStrHasSuffix base "primary.xml".data = false)
    (h2 : gStrHasSuffix base "primary.sqlite".data = false)
    (h3 : gStrHasSuffix base "filelists.xml".data = false)
    (h4 : gStrHasSuffix base "filelists.sqlite".data = false)
    (h5 : gStrHasSuffix base "other.xml".data = false)
    (h6 : gStrHasSuffix base "other.sqlite".data = false) :
    classify s = none := by
  unfold classify
  rw [hstrip]
  simp [h1, h2, h3, h4, h5, h6]

theorem stripLastExt_append_marker (stem : Name) (fam : Family) :
    stripLastExt (stem ++ familyMarker fam) = some (stem ++ familyBase fam) := by
  rw [familyMarker_eq, ← List.append_assoc]
  exact stripLastExt_append stem (familyBase fam) (familyExt_no_dot fam)

theorem classify_append_marker (stem : Name) (fam : Family) :
    classify (stem ++ familyMarker fam) = none := by
  cases fam <;>
    exact classify_of_base_none _ _ (stripLastExt_append_marker stem _)
      (gStrHasSuffix_false_of _ _ stem (by decide) (by decide))
      (gStrHasSuffix_false_of _ _ stem (by decide) (by decide))
      (gStrHasSuffix_false_of _ _ stem (by decide) (by decide))
      (gStrHasSuffix_false_of _ _ stem (by decide) (by decide))
      (gStrHasSuffix_false_of _ _ stem (by decide) (by decide))
      (gStrHasSuffix_false_of _ _ stem (by decide) (by decide))

theorem classify_marker_ext (stem : Name) (fam : Family) {ext : Name} (hext : '.' ∉ ext) :
    classify (stem ++ familyMarker fam ++ '.' :: ext) = some fam := by
  unfold classify
  rw [stripLastExt_append stem (familyMarker fam) hext]
  have hself := gStrHasSuffix_append_self stem (familyMarker fam)
  cases fam
  case priXml =>
    simp only [familyMarker] at hself ⊢
    simp [hself]
  case priDb =>
    have c1 := gStrHasSuffix_false_of "primary.xml".data "primary.sqlite".data stem
      (by decide) (by decide)
    simp only [familyMarker] at hself ⊢
    simp [c1, hself]
  case filXml =>
    have c1 := gStrHasSuffix_false_of "primary.xml".data "filelists.xml".data stem
      (by decide) (by decide)
    have c2 := gStrHasSuffix_false_of "primary.sqlite".data "filelists.xml".data stem
      (by decide) (by decide)
    simp only [familyMarker] at hself ⊢
    simp [c1, c2, hself]
  case filDb =>
    have c1 := gStrHasSuffix_false_of "primary.xml".data "filelists.sqlite".data stem
      (by decide) (by decide)
    have c2 := gStrHasSuffix_false_of "primary.sqlite".data "filelists.sqlite".data stem
      (by decide) (by decide)
    have c3 := gStrHasSuffix_false_of "filelists.xml".data "filelists.sqlite".data stem
      (by decide) (by decide)
    simp only [familyMarker] at hself ⊢
    simp [c1, c2, c3, hself]
  case othXml =>
    have c1 := gStrHasSuffix_false_of "primary.xml".data "other.xml".data stem
      (by decide) (by decide)
    have c2 := gStrHasSuffix_false_of "primary.sqlite".data "other.xml".data stem
      (by decide) (by decide)
    have c3 := gStrHasSuffix_false_of "filelists.xml".data "other.xml".data stem
      (by decide) (by decide)
    have c4 := gStrHasSuffix_false_of "filelists.sqlite".data "other.xml".data stem
      (by decide) (by decide)
    simp only [familyMarker] at hself ⊢
    simp [c1, c2, c3, c4, hself]
  case othDb =>
    have c1 := gStrHasSuffix_false_of "primary.xml".data "other.sqlite".data stem
      (by decide) (by decide)
    have c2 := gStrHasSuffix_false_of "primary.sqlite".data "other.sqlite".data stem
      (by decide) (by decide)
    have c3 := gStrHasSuffix_false_of "filelists.xml".data "other.sqlite".data stem
      (by decide) (by decide)
    have c4 := gStrHasSuffix_false_of "filelists.sqlite".data "other.sqlite".data stem
      (by decide) (by decide)
    have c5 := gStrHasSuffix_false_of "other.xml".data "other.sqlite".data stem
      (by decide) (by decide)
    simp only [familyMarker] at hself ⊢
    simp [c1, c2, c3, c4, c5, hself]

/-! ### Sorted-insertion and scan lemmas -/

theorem cmp_pos_iff (a b : OldFile) :
    0 < cr_cmp_old_repodata_files a b ↔ a.mtime < b.mtime := by
  unfold cr_cmp_old_repodata_files
  split
  · next h => simpa using h
  · split
    · next h => simp; omega
    · next h h' => simp; omega

theorem insertSortedOldFile_perm (f : OldFile) (l : List OldFile) :
    (insertSortedOldFile f l).Perm (f :: l) := by
  induction l with
  | nil => simp [insertSortedOldFile]
  | cons x xs ih =>
    rw [insertSortedOldFile]
    split
    · exact (ih.cons x).trans (List.Perm.swap f x xs)
    · exact List.Perm.refl _

theorem insertSortedOldFile_sorted (f : OldFile) (l : List OldFile)
    (h : sortedDesc l) : sortedDesc (insertSortedOldFile f l) := by
  induction l with
  | nil => simp [insertSortedOldFile, sortedDesc]
  | cons x xs ih =>
    rw [insertSortedOldFile]
    simp only [sortedDesc, List.pairwise_cons] at h
    split
    · next hcmp =>
      have hfx : f.mtime < x.mtime := (cmp_pos_iff f x).mp hcmp
      simp only [sortedDesc, List.pairwise_cons]
      refine ⟨?_, ih h.2⟩
      intro y hy
      have hy' : y ∈ f :: xs := (insertSortedOldFile_perm f xs).mem_iff.mp hy
      rcases List.mem_cons.mp hy' with hEq | hmem
      · exact hEq ▸ le_of_lt hfx
      · exact h.1 y hmem
    · next hcmp =>
      have hxf : x.mtime ≤ f.mtime := by
        have h2 := (cmp_pos_iff f x).not.mp hcmp
        omega
      simp only [sortedDesc, List.pairwise_cons]
      refine ⟨?_, h.1, h.2⟩
      intro y hy
      rcases List.mem_cons.mp hy with hEq | hmem
      · exact hEq ▸ hxf
      · exact le_trans (h.1 y hmem) hxf

theorem scanFamily_go (entries : List DirEntry) (fam : Family) (acc : List OldFile) :
    (entries.foldl
      (fun acc e => if classify e.name = some fam then cr_stat_and_insert e acc else acc)
      acc).Perm
    (acc ++ (entries.filter (fun e => decide (classify e.name = some fam))).map toOldFile) := by
  induction entries generalizing acc with
  | nil => simp
  | cons e es ih =>
    rw [List.foldl_cons]
    by_cases hc : classify e.name = some fam
    · rw [if_pos hc]
      have h1 := ih (cr_stat_and_insert e acc)
      have h2 : (cr_stat_and_insert e acc).Perm (toOldFile e :: acc) :=
        insertSortedOldFile_perm _ acc
      have h3 := h2.append_right
        ((es.filter (fun e => decide (classify e.name = some fam))).map toOldFile)
      rw [List.filter_cons_of_pos (by simpa using hc), List.map_cons]
      exact (h1.trans h3).trans List.perm_middle.symm
    · rw [if_neg hc]
      refine (ih acc).trans ?_
      rw [List.filter_cons_of_neg (by simpa using hc)]

theorem scanFamily_perm (entries : List DirEntry) (fam : Family) :
    (scanFamily entries fam).Perm
      ((entries.filter (fun e => decide (classify e.name = some fam))).map toOldFile) := by
  have := scanFamily_go entries fam []
  simpa [scanFamily] using this

theorem scanFamily_sorted_go (entries : List DirEntry) (fam : Family)
    (acc : List OldFile) (hacc : sortedDesc acc) :
    sortedDesc (entries.foldl
      (fun acc e => if classify e.name = some fam then cr_stat_and_insert e acc else acc)
      acc) := by
  induction entries generalizing acc with
  | nil => exact hacc
  | cons e es ih =>
    rw [List.foldl_cons]
    by_cases hc : classify e.name = some fam
    · rw [if_pos hc]
      exact ih _ (insertSortedOldFile_sorted _ _ hacc)
    · rw [if_neg hc]
      exact ih _ hacc

theorem scanFamily_sorted (entries : List DirEntry) (fam : Family) :
    sortedDesc (scanFamily entries fam) :=
  scanFamily_sorted_go entries fam [] (by simp [sortedDesc])

theorem mem_scanFamily {f : OldFile} {entries : List DirEntry} {fam : Family}
    (h : f ∈ scanFamily entries fam) :
    classify f.path = some fam ∧ ∃ e ∈ entries, toOldFile e = f := by
  have hmem := (scanFamily_perm entries fam).mem_iff.mp h
  rcases List.mem_map.mp hmem with ⟨e, he, hEq⟩
  have he' := List.mem_filter.mp he
  constructor
  · have hcl : classify e.name = some fam := by simpa using he'.2
    rw [← hEq]
    exact hcl
  · exact ⟨e, he'.1, hEq⟩

/-! ### Structure of the classic blacklist -/

theorem appendDropped_eq (retain : Nat) (lst : List OldFile) (bl : List Name) :
    appendDropped retain lst bl = ((lst.drop retain).map OldFile.path).reverse ++ bl := by
  unfold appendDropped
  rw [foldl_prepend_path]

theorem classicBlacklistCore_eq (entries : List DirEntry) (retain : Nat) :
    classicBlacklistCore entries retain =
      (famBlock entries retain .priXml ++ famBlock entries retain .priDb ++
       famBlock entries retain .filXml ++ famBlock entries retain .filDb ++
       famBlock entries retain .othXml ++ famBlock entries retain .othDb).reverse := by
  unfold classicBlacklistCore familiesOrder famBlock
  simp [appendDropped_eq, List.reverse_append, List.append_assoc]

theorem mem_famBlock_classified {nm : Name} {entries : List DirEntry} {retain : Nat}
    {fam : Family} (h : nm ∈ famBlock entries retain fam) : classify nm = some fam := by
  unfold famBlock at h
  rcases List.mem_map.mp h with ⟨f, hf, hEq⟩
  have hf' : f ∈ scanFamily entries fam := List.drop_subset _ _ hf
  exact hEq ▸ (mem_scanFamily hf').1

theorem mem_core_iff (nm : Name) (entries : List DirEntry) (retain : Nat) :
    nm ∈ classicBlacklistCore entries retain ↔ ∃ fam, nm ∈ famBlock entries retain fam := by
  rw [classicBlacklistCore_eq]
  simp only [List.mem_reverse, List.mem_append]
  constructor
  · intro h
    rcases h with ((((h | h) | h) | h) | h) | h
    exacts [⟨.priXml, h⟩, ⟨.priDb, h⟩, ⟨.filXml, h⟩, ⟨.filDb, h⟩, ⟨.othXml, h⟩, ⟨.othDb, h⟩]
  · rintro ⟨fam, h⟩
    cases fam <;> tauto

theorem mem_core_classified {nm : Name} {entries : List DirEntry} {retain : Nat}
    (h : nm ∈ classicBlacklistCore entries retain) : ∃ fam, classify nm = some fam := by
  rcases (mem_core_iff nm entries retain).mp h with ⟨fam, hf⟩
  exact ⟨fam, mem_famBlock_classified hf⟩

theorem famBlock_filter (entries : List DirEntry) (retain : Nat) (fam fam' : Family) :
    (famBlock entries retain fam').filter (fun nm => decide (classify nm = some fam))
      = if fam' = fam then famBlock entries retain fam' else [] := by
  by_cases h : fam' = fam
  · subst h
    rw [if_pos rfl]
    refine List.filter_eq_self.mpr fun nm hm => ?_
    simp [mem_famBlock_classified hm]
  · rw [if_neg h]
    refine List.filter_eq_nil_iff.mpr fun nm hm => ?_
    simp [mem_famBlock_classified hm, h]

theorem core_filter_fam (entries : List DirEntry) (retain : Nat) (fam : Family) :
    (classicBlacklistCore entries retain).filter (fun nm => decide (classify nm = some fam))
      = (famBlock entries retain fam).reverse := by
  rw [classicBlacklistCore_eq, List.filter_reverse]
  simp only [List.filter_append, famBlock_filter]
  cases fam <;> simp

theorem famBlock_length (entries : List DirEntry) (retain : Nat) (fam : Family) :
    (famBlock entries retain fam).length
      = (entries.filter (fun e => decide (classify e.name = some fam))).length - retain := by
  unfold famBlock
  rw [List.length_map, List.length_drop, (scanFamily_perm entries fam).length_eq,
    List.length_map]

theorem map_path_toOldFile (l : List DirEntry) :
    (l.map toOldFile).map OldFile.path = l.map DirEntry.name := by
  rw [List.map_map]
  rfl

theorem scan_paths_perm (entries : List DirEntry) (fam : Family) :
    ((scanFamily entries fam).map OldFile.path).Perm
      ((entries.filter (fun e => decide (classify e.name = some fam))).map DirEntry.name) := by
  have h := (scanFamily_perm entries fam).map OldFile.path
  rwa [map_path_toOldFile] at h

theorem scan_paths_nodup {entries : List DirEntry} (fam : Family)
    (h : (entries.map DirEntry.name).Nodup) :
    ((scanFamily entries fam).map OldFile.path).Nodup := by
  have hsub : ((entries.filter
        (fun e => decide (classify e.name = some fam))).map DirEntry.name).Sublist
      (entries.map DirEntry.name) :=
    (List.filter_sublist entries).map _
  exact (scan_paths_perm entries fam).nodup_iff.mpr (List.Nodup.sublist hsub h)

theorem classic_ok_nat (d : RepoDir) (n : Nat) (h : d.openOk = true) :
    (cr_repodata_blacklist_classic d (n : Int)).1
      = Except.ok (classicBlacklistCore d.entries n) := by
  unfold cr_repodata_blacklist_classic
  rw [if_neg (by omega), if_neg (by omega), if_pos h, Int.toNat_natCast]

/-! ### The removal loop -/

theorem pruneFold_eq (bl : List Name) (rOk : Name → Bool) (entries : List DirEntry)
    (acc : List DirEntry) (tr : List FsOp) :
    entries.foldl (pruneStep bl rOk) (acc, tr)
      = (acc ++ entries.filter (fun e => !(decide (e.name ∈ bl) && rOk e.name)),
         tr ++ (entries.filter (fun e => decide (e.name ∈ bl))).map
           (fun e => FsOp.removeFile e.name)) := by
  induction entries generalizing acc tr with
  | nil => simp
  | cons e es ih =>
    rw [List.foldl_cons]
    by_cases hmem : e.name ∈ bl
    · by_cases hr : rOk e.name = true
      · have hstep : pruneStep bl rOk (acc, tr) e = (acc, tr ++ [FsOp.removeFile e.name]) := by
          simp [pruneStep, hmem, hr]
        rw [hstep, ih, List.filter_cons_of_neg (by simp [hmem, hr]),
          List.filter_cons_of_pos (by simp [hmem])]
        simp [List.append_assoc]
      · have hstep : pruneStep bl rOk (acc, tr) e
            = (acc ++ [e], tr ++ [FsOp.removeFile e.name]) := by
          simp [pruneStep, hmem, hr]
        rw [hstep, ih, List.filter_cons_of_pos (by simp [hmem, hr]),
          List.filter_cons_of_pos (by simp [hmem])]
        simp [List.append_assoc]
    · have hstep : pruneStep bl rOk (acc, tr) e = (acc ++ [e], tr) := by
        simp [pruneStep, hmem]
      rw [hstep, ih, List.filter_cons_of_pos (by simp [hmem]),
        List.filter_cons_of_neg (by simp [hmem])]
      simp [List.append_assoc]

/-! ### The copy loop -/

theorem migFold_preserve (bl : List Name) (cOk : Name → Bool) (content : Name → Nat)
    (entries : List DirEntry) (dest : List (Name × Nat)) (tr : List FsOp)
    (nm : Name) (c : Nat) (hl : lookupName nm dest = some c)
    (htr : FsOp.copyFile nm ∉ tr) :
    lookupName nm (entries.foldl (migStep bl cOk content) (dest, tr)).1 = some c ∧
    FsOp.copyFile nm ∉ (entries.foldl (migStep bl cOk content) (dest, tr)).2 := by
  induction entries generalizing dest tr with
  | nil => exact ⟨hl, htr⟩
  | cons e es ih =>
    rw [List.foldl_cons]
    by_cases hmem : e.name ∈ bl
    · have hstep : migStep bl cOk content (dest, tr) e = (dest, tr) := by
        simp [migStep, hmem]
      rw [hstep]
      exact ih dest tr hl htr
    · by_cases hex : (lookupName e.name dest).isSome = true
      · have hstep : migStep bl cOk content (dest, tr) e
            = (dest, tr ++ [FsOp.testDestExists e.name]) := by
          simp [migStep, hmem, hex]
        rw [hstep]
        refine ih dest _ hl ?_
        intro hmem'
        rcases List.mem_append.mp hmem' with hbad | hbad
        · exact htr hbad
        · simp at hbad
      · have hne : e.name ≠ nm := by
          intro hEq
          rw [hEq, hl] at hex
          simp at hex
        have htr' : FsOp.copyFile nm ∉
            tr ++ [FsOp.testDestExists e.name, FsOp.copyFile e.name] := by
          intro hmem'
          rcases List.mem_append.mp hmem' with hbad | hbad
          · exact htr hbad
          · rcases List.mem_cons.mp hbad with hEq | hbad2
            · exact FsOp.noConfusion hEq
            · rcases List.mem_cons.mp hbad2 with hEq | hbad3
              · exact hne (FsOp.copyFile.inj hEq).symm
              · simp at hbad3
        by_cases hcp : cOk e.name = true
        · have hstep : migStep bl cOk content (dest, tr) e
              = (dest ++ [(e.name, content e.name)],
                 tr ++ [FsOp.testDestExists e.name, FsOp.copyFile e.name]) := by
            simp [migStep, hmem, hex, hcp]
          rw [hstep]
          refine ih _ _ ?_ htr'
          rw [lookupName_append_single_ne (content e.name) dest hne]
          exact hl
        · have hstep : migStep bl cOk content (dest, tr) e
              = (dest, tr ++ [FsOp.testDestExists e.name, FsOp.copyFile e.name]) := by
            simp [migStep, hmem, hex, hcp]
          rw [hstep]
          exact ih dest _ hl htr'

theorem migFold_nocopy_of_mem (bl : List Name) (cOk : Name → Bool) (content : Name → Nat)
    (entries : List DirEntry) (dest : List (Name × Nat)) (tr : List FsOp)
    (nm : Name) (hmem : nm ∈ bl) (htr : FsOp.copyFile nm ∉ tr) :
    FsOp.copyFile nm ∉ (entries.foldl (migStep bl cOk content) (dest, tr)).2 := by
  induction entries generalizing dest tr with
  | nil => exact htr
  | cons e es ih =>
    rw [List.foldl_cons]
    have hne_of : e.name ∉ bl → e.name ≠ nm := fun hn hEq => hn (hEq ▸ hmem)
    by_cases hmem' : e.name ∈ bl
    · have hstep : migStep bl cOk content (dest, tr) e = (dest, tr) := by
        simp [migStep, hmem']
      rw [hstep]
      exact ih dest tr htr
    · have hne : e.name ≠ nm := hne_of hmem'
      have htr2 : ∀ tl : List FsOp,
          (∀ op ∈ tl, op = FsOp.testDestExists e.name ∨ op = FsOp.copyFile e.name) →
          FsOp.copyFile nm ∉ tr ++ tl := by
        intro tl hops hbad
        rcases List.mem_append.mp hbad with hb | hb
        · exact htr hb
        · rcases hops _ hb with hEq | hEq
          · exact FsOp.noConfusion hEq
          · exact hne (FsOp.copyFile.inj hEq).symm
      by_cases hex : (lookupName e.name dest).isSome = true
      · have hstep : migStep bl cOk content (dest, tr) e
            = (dest, tr ++ [FsOp.testDestExists e.name]) := by
          simp [migStep, hmem', hex]
        rw [hstep]
        exact ih dest _ (htr2 _ (by intro op hop; simp at hop; simp [hop]))
      · by_cases hcp : cOk e.name = true
        · have hstep : migStep bl cOk content (dest, tr) e
              = (dest ++ [(e.name, content e.name)],
                 tr ++ [FsOp.testDestExists e.name, FsOp.copyFile e.name]) := by
            simp [migStep, hmem', hex, hcp]
          rw [hstep]
          refine ih _ _ (htr2 _ ?_)
          intro op hop
          rcases List.mem_cons.mp hop with h | h
          · exact Or.inl h
          · rcases List.mem_cons.mp h with h2 | h2
            · exact Or.inr h2
            · simp at h2
        · have hstep : migStep bl cOk content (dest, tr) e
              = (dest, tr ++ [FsOp.testDestExists e.name, FsOp.copyFile e.name]) := by
            simp [migStep, hmem', hex, hcp]
          rw [hstep]
          refine ih dest _ (htr2 _ ?_)
          intro op hop
          rcases List.mem_cons.mp hop with h | h
          · exact Or.inl h
          · rcases List.mem_cons.mp h with h2 | h2
            · exact Or.inr h2
            · simp at h2

theorem migFold_copyAttempts (bl : List Name) (cOk : Name → Bool) (content : Name → Nat)
    (entries : List DirEntry) (dest dest₀ : List (Name × Nat)) (tr : List FsOp)
    (hnd : (entries.map DirEntry.name).Nodup)
    (hagree : ∀ e ∈ entries, lookupName e.name dest = lookupName e.name dest₀) :
    copyAttempts (entries.foldl (migStep bl cOk content) (dest, tr)).2
      = copyAttempts tr
        ++ (entries.filter (fun e =>
             !decide (e.name ∈ bl) && (lookupName e.name dest₀).isNone)).map DirEntry.name := by
  induction entries generalizing dest tr with
  | nil => simp
  | cons e es ih =>
    rw [List.foldl_cons]
    have hnd' : (es.map DirEntry.name).Nodup := (List.map_cons DirEntry.name e es ▸ hnd).of_cons
    have hfresh : e.name ∉ es.map DirEntry.name := by
      have h2 := List.map_cons DirEntry.name e es ▸ hnd
      exact (List.nodup_cons.mp h2).1
    by_cases hmem : e.name ∈ bl
    · have hstep : migStep bl cOk content (dest, tr) e = (dest, tr) := by
        simp [migStep, hmem]
      rw [hstep, ih dest tr hnd' fun x hx => hagree x (List.mem_cons_of_mem e hx),
        List.filter_cons_of_neg (by simp [hmem])]
    · by_cases hex : (lookupName e.name dest).isSome = true
      · have hex₀ : (lookupName e.name dest₀).isSome = true := by
          rw [← hagree e (List.mem_cons_self e es)]
          exact hex
        have hstep : migStep bl cOk content (dest, tr) e
            = (dest, tr ++ [FsOp.testDestExists e.name]) := by
          simp [migStep, hmem, hex]
        have hne₀ : lookupName e.name dest₀ ≠ none := by
          intro hcontra
          rw [hcontra] at hex₀
          simp at hex₀
        rw [hstep, ih dest _ hnd' fun x hx => hagree x (List.mem_cons_of_mem e hx),
          List.filter_cons_of_neg (by simp [hmem, hne₀])]
        simp [copyAttempts]
      · have hex₀ : (lookupName e.name dest₀).isNone = true := by
          rw [← hagree e (List.mem_cons_self e es)]
          simpa using hex
        have hfilter : (List.filter (fun e =>
              !decide (e.name ∈ bl) && (lookupName e.name dest₀).isNone) (e :: es))
            = e :: List.filter (fun e =>
              !decide (e.name ∈ bl) && (lookupName e.name dest₀).isNone) es := by
          exact List.filter_cons_of_pos (by simp [hmem, hex₀])
        by_cases hcp : cOk e.name = true
        · have hstep : migStep bl cOk content (dest, tr) e
              = (dest ++ [(e.name, content e.name)],
                 tr ++ [FsOp.testDestExists e.name, FsOp.copyFile e.name]) := by
            simp [migStep, hmem, hex, hcp]
          have hagree' : ∀ x ∈ es,
              lookupName x.name (dest ++ [(e.name, content e.name)])
                = lookupName x.name dest₀ := by
            intro x hx
            have hnex : e.name ≠ x.name := by
              intro hEq
              exact hfresh (hEq ▸ List.mem_map_of_mem DirEntry.name hx)
            rw [lookupName_append_single_ne _ _ hnex]
            exact hagree x (List.mem_cons_of_mem e hx)
          rw [hstep, ih _ _ hnd' hagree', hfilter]
          simp [copyAttempts, List.append_assoc]
        · have hstep : migStep bl cOk content (dest, tr) e
              = (dest, tr ++ [FsOp.testDestExists e.name, FsOp.copyFile e.name]) := by
            simp [migStep, hmem, hex, hcp]
          rw [hstep, ih dest _ hnd' fun x hx => hagree x (List.mem_cons_of_mem e hx),
            hfilter]
          simp [copyAttempts, List.append_assoc]

/-! ### Runs of the two entry points -/

theorem classic_neg (d : RepoDir) (retain : Int) (h1 : retain < 0) (h2 : retain ≠ -1) :
    cr_repodata_blacklist_classic d retain = (.error .badArg, []) := by
  unfold cr_repodata_blacklist_classic
  rw [if_neg h2, if_pos h1]

theorem prunerBlacklist_mem_repomd {d : RepoDir} {retain : Int} {bl : List Name}
    (h : prunerBlacklist d retain = .ok bl) : repomdName ∈ bl := by
  unfold prunerBlacklist at h
  split at h
  · exact absurd h (by simp)
  · have h2 := Except.ok.inj h
    rw [← h2]
    exact List.mem_cons_self _ _

theorem migratorBlacklist_mem_repomd {d : RepoDir} {retain : Int} {bl : List Name}
    (h : migratorBlacklist d retain = .ok bl) : repomdName ∈ bl := by
  unfold migratorBlacklist at h
  split at h
  · exact absurd h (by simp)
  · have h2 := Except.ok.inj h
    rw [← h2]
    exact List.mem_cons_self _ _

theorem prunerBlacklist_nat (d : RepoDir) (n : Nat) (h : d.openOk = true) :
    prunerBlacklist d (n : Int)
      = .ok (repomdName :: classicBlacklistCore d.entries n) := by
  unfold prunerBlacklist
  rw [classic_ok_nat d n h]

theorem prune_run (fs : PruneFS) (retain : Int) (bl : List Name)
    (hbl : prunerBlacklist fs.repodataDir retain = .ok bl)
    (hopen : fs.repodataDir.openOk = true) :
    cr_remove_metadata_classic fs retain
      = ⟨.ok (),
         fs.repodataDir.entries.filter
           (fun e => !(decide (e.name ∈ bl) && fs.removeOk e.name)),
         (cr_repodata_blacklist_classic fs.repodataDir retain).2 ++ [FsOp.openDir]
           ++ (fs.repodataDir.entries.filter (fun e => decide (e.name ∈ bl))).map
               (fun e => FsOp.removeFile e.name)⟩ := by
  unfold cr_remove_metadata_classic
  rw [hbl]
  simp only [hopen, if_true, pruneFold_eq, List.nil_append]

theorem prune_badarg (fs : PruneFS) (retain : Int) (h1 : retain < 0) (h2 : retain ≠ -1) :
    cr_remove_metadata_classic fs retain
      = ⟨.error .badArg, fs.repodataDir.entries, []⟩ := by
  have hsel := classic_neg fs.repodataDir retain h1 h2
  have hbl : prunerBlacklist fs.repodataDir retain = .error .badArg := by
    simp [prunerBlacklist, hsel]
  unfold cr_remove_metadata_classic
  rw [hbl, hsel]

theorem migrate_run (fs : MigrateFS) (retain : Int) (bl : List Name)
    (hex : fs.oldExists = true)
    (hbl : migratorBlacklist fs.oldDir retain = .ok bl)
    (hopen : fs.oldDir.openOk = true) :
    cr_old_metadata_retention fs retain
      = ⟨.ok (),
         (fs.oldDir.entries.foldl (migStep bl fs.copyOk fs.oldContent)
           (fs.newFiles, [])).1,
         FsOp.testOldRepoExists :: (cr_repodata_blacklist_classic fs.oldDir retain).2
           ++ [FsOp.openDir]
           ++ (fs.oldDir.entries.foldl (migStep bl fs.copyOk fs.oldContent)
               (fs.newFiles, [])).2⟩ := by
  unfold cr_old_metadata_retention
  rw [if_neg (by simp [hex]), hbl]
  simp only [hopen, if_true]

theorem migrate_badarg (fs : MigrateFS) (retain : Int) (hex : fs.oldExists = true)
    (h1 : retain < 0) (h2 : retain ≠ -1) :
    cr_old_metadata_retention fs retain
      = ⟨.error .badArg, fs.newFiles, [FsOp.testOldRepoExists]⟩ := by
  have hsel := classic_neg fs.oldDir retain h1 h2
  have hbl : migratorBlacklist fs.oldDir retain = .error .badArg := by
    simp [migratorBlacklist, hsel]
  unfold cr_old_metadata_retention
  rw [if_neg (by simp [hex]), hbl, hsel]

theorem migrate_absent (fs : MigrateFS) (retain : Int) (hex : fs.oldExists = false) :
    cr_old_metadata_retention fs retain
      = ⟨.ok (), fs.newFiles, [FsOp.testOldRepoExists]⟩ := by
  unfold cr_old_metadata_retention
  rw [if_pos hex]

/-! ### Further run lemmas: error paths and trace shapes -/

theorem migrate_selerr (fs : MigrateFS) (retain : Int) (hex : fs.oldExists = true)
    (e : HelperError) (hbl : migratorBlacklist fs.oldDir retain = .error e) :
    cr_old_metadata_retention fs retain
      = ⟨.error e, fs.newFiles,
         FsOp.testOldRepoExists :: (cr_repodata_blacklist_classic fs.oldDir retain).2⟩ := by
  unfold cr_old_metadata_retention
  rw [if_neg (by simp [hex]), hbl]

theorem migrate_openfail (fs : MigrateFS) (retain : Int) (hex : fs.oldExists = true)
    (bl : List Name) (hbl : migratorBlacklist fs.oldDir retain = .ok bl)
    (hopen : fs.oldDir.openOk = false) :
    cr_old_metadata_retention fs retain
      = ⟨.error .io, fs.newFiles,
         FsOp.testOldRepoExists :: (cr_repodata_blacklist_classic fs.oldDir retain).2
           ++ [FsOp.openDir]⟩ := by
  unfold cr_old_metadata_retention
  rw [if_neg (by simp [hex]), hbl]
  simp [hopen]

theorem classic_trace_shape {d : RepoDir} {retain : Int} {op : FsOp}
    (h : op ∈ (cr_repodata_blacklist_classic d retain).2) :
    op = FsOp.openDir ∨ ∃ nm, op = FsOp.statFile nm := by
  unfold cr_repodata_blacklist_classic at h
  split at h
  · simp at h
  · split at h
    · simp at h
    · split at h
      · rcases List.mem_cons.mp h with hEq | hmem
        · exact Or.inl hEq
        · rcases List.mem_map.mp hmem with ⟨e, _, hEq⟩
          exact Or.inr ⟨e.name, hEq.symm⟩
      · rcases List.mem_cons.mp h with hEq | hmem
        · exact Or.inl hEq
        · simp at hmem

theorem removeAttempts_classic (d : RepoDir) (retain : Int) :
    removeAttempts (cr_repodata_blacklist_classic d retain).2 = [] := by
  refine List.filterMap_eq_nil_iff.mpr fun op hop => ?_
  rcases classic_trace_shape hop with hEq | ⟨nm, hEq⟩ <;> subst hEq <;> rfl

theorem copyAttempts_classic (d : RepoDir) (retain : Int) :
    copyAttempts (cr_repodata_blacklist_classic d retain).2 = [] := by
  refine List.filterMap_eq_nil_iff.mpr fun op hop => ?_
  rcases classic_trace_shape hop with hEq | ⟨nm, hEq⟩ <;> subst hEq <;> rfl

theorem copy_notin_classic {d : RepoDir} {retain : Int} (nm : Name) :
    FsOp.copyFile nm ∉ (cr_repodata_blacklist_classic d retain).2 := by
  intro h
  rcases classic_trace_shape h with hEq | ⟨nm2, hEq⟩ <;> exact FsOp.noConfusion hEq

theorem filterMap_some_comp {α : Type} (f : α → Name) (l : List α) :
    l.filterMap (fun a => some (f a)) = l.map f := by
  induction l with
  | nil => rfl
  | cons a as ih => simp [List.filterMap_cons, ih]

/-! ### The manifest-mode record loop -/

theorem repomdFold_eq (records : List RepomdRecord) (acc : List Name) :
    records.foldl repomdRecordStep acc
      = (records.filterMap recordBasename?).reverse ++ acc := by
  induction records generalizing acc with
  | nil => simp
  | cons r rs ih =>
    rw [List.foldl_cons]
    cases hh : r.location_href with
    | none =>
      have hstep : repomdRecordStep acc r = acc := by simp [repomdRecordStep, hh]
      have hf : recordBasename? r = none := by simp [recordBasename?, hh]
      rw [hstep, ih, List.filterMap_cons, hf]
    | some href =>
      cases hb : r.location_base with
      | some b =>
        have hstep : repomdRecordStep acc r = acc := by simp [repomdRecordStep, hh, hb]
        have hf : recordBasename? r = none := by simp [recordBasename?, hh, hb]
        rw [hstep, ih, List.filterMap_cons, hf]
      | none =>
        have hstep : repomdRecordStep acc r = gPathGetBasename href :: acc := by
          simp [repomdRecordStep, hh, hb]
        have hf : recordBasename? r = some (gPathGetBasename href) := by
          simp [recordBasename?, hh, hb]
        rw [hstep, ih, List.filterMap_cons, hf]
        simp [List.append_assoc]

theorem removeAttempts_append (a b : List FsOp) :
    removeAttempts (a ++ b) = removeAttempts a ++ removeAttempts b := by
  unfold removeAttempts
  rw [List.filterMap_append]

theorem copyAttempts_append (a b : List FsOp) :
    copyAttempts (a ++ b) = copyAttempts a ++ copyAttempts b := by
  unfold copyAttempts
  rw [List.filterMap_append]

theorem removeAttempts_openDir : removeAttempts [FsOp.openDir] = [] := rfl

theorem copyAttempts_openDir : copyAttempts [FsOp.openDir] = [] := rfl

theorem copyAttempts_testOldRepo (tr : List FsOp) :
    copyAttempts (FsOp.testOldRepoExists :: tr) = copyAttempts tr := rfl

theorem removeAttempts_map_removeFile (l : List DirEntry) :
    removeAttempts (l.map (fun e => FsOp.removeFile e.name)) = l.map DirEntry.name := by
  unfold removeAttempts
  rw [List.filterMap_map]
  exact filterMap_some_comp DirEntry.name l

theorem core_eq_nil {E : List DirEntry} {n : Nat}
    (h : ∀ fam, (scanFamily E fam).length ≤ n) :
    classicBlacklistCore E n = [] := by
  rw [classicBlacklistCore_eq]
  have hB : ∀ fam, famBlock E n fam = [] := by
    intro fam
    unfold famBlock
    rw [List.drop_eq_nil_of_le (h fam)]
    rfl
  simp only [hB]
  rfl

/-! ### The claims -/

/-- C7: for every directory and every manifest parse result, both retention
strategies invoked with retain count -1 return success with an empty
blacklist immediately and perform no filesystem operation at all (empty
trace: nothing is opened, listed, stat-ed or parsed). -/
theorem claim7_retain_all_short_circuit (d : RepoDir) (parseResult : Option Repomd) :
    cr_repodata_blacklist_classic d (-1) = (Except.ok [], [])
    ∧ cr_repodata_blacklist parseResult (-1) = (Except.ok [], []) := by
  constructor
  · unfold cr_repodata_blacklist_classic
    rw [if_pos rfl]
  · unfold cr_repodata_blacklist
    rw [if_pos (Or.inl rfl)]

/-- C2, counterexample: on the directory with exactly `a1-primary.xml`
(mtime 1), `a2-primary.xml` (mtime 2) and `a3-primary.xml.gz` (mtime 3),
classic-mode selection with retain count 1 succeeds with the EMPTY
blacklist, not with the blacklist containing `a1-primary.xml` the claim
asserts. -/
theorem claim2_counterexample :
    (cr_repodata_blacklist_classic dirScenario 1).1 = Except.ok []
    ∧ (cr_repodata_blacklist_classic dirScenario 1).1
        ≠ Except.ok ["a1-primary.xml".data] := by
  decide

/-- C2, amended: on that directory, classic-mode selection with retain
count 1 leaves `a1-primary.xml` and `a2-primary.xml` unclassified (after
stripping their final extension they no longer end in a family marker),
classifies `a3-primary.xml.gz` into the primary-xml family, and — since
that family then holds a single file and one is retained — produces the
empty blacklist. -/
theorem claim2_amended :
    classify "a1-primary.xml".data = none
    ∧ classify "a2-primary.xml".data = none
    ∧ classify "a3-primary.xml.gz".data = some Family.priXml
    ∧ (cr_repodata_blacklist_classic dirScenario 1).1 = Except.ok [] := by
  decide

/-- C3, counterexample: with retain count -2, the migrator entry point on a
nonexistent old repository returns success, not an invalid-argument
error (the existence test short-circuits before the count is validated). -/
theorem claim3_counterexample :
    (cr_old_metadata_retention mfsAbsent (-2)).ret = Except.ok ()
    ∧ (cr_old_metadata_retention mfsAbsent (-2)).ret
        ≠ Except.error HelperError.badArg := by
  decide

/-- C3, amended: for every retain count strictly less than -1, the pruner
always fails with an invalid-argument error, removes nothing and performs
no filesystem operation; the migrator does the same whenever the old
repository exists (its only filesystem operation being the initial
existence test); when the old repository does not exist the migrator
instead returns success immediately, likewise without side effects and
without opening any directory. -/
theorem claim3_amended (fsP : PruneFS) (mfs : MigrateFS) (retain : Int)
    (h : retain < -1) :
    (cr_remove_metadata_classic fsP retain).rc = Except.error HelperError.badArg
    ∧ (cr_remove_metadata_classic fsP retain).entriesAfter = fsP.repodataDir.entries
    ∧ (cr_remove_metadata_classic fsP retain).trace = []
    ∧ (mfs.oldExists = true →
        (cr_old_metadata_retention mfs retain).ret = Except.error HelperError.badArg
        ∧ (cr_old_metadata_retention mfs retain).newFilesAfter = mfs.newFiles
        ∧ (cr_old_metadata_retention mfs retain).trace = [FsOp.testOldRepoExists])
    ∧ (mfs.oldExists = false →
        (cr_old_metadata_retention mfs retain).ret = Except.ok ()
        ∧ (cr_old_metadata_retention mfs retain).newFilesAfter = mfs.newFiles
        ∧ (cr_old_metadata_retention mfs retain).trace = [FsOp.testOldRepoExists]) := by
  have h1 : retain < 0 := by omega
  have h2 : retain ≠ -1 := by omega
  rw [prune_badarg fsP retain h1 h2]
  refine ⟨rfl, rfl, rfl, ?_, ?_⟩
  · intro hex
    rw [migrate_badarg mfs retain hex h1 h2]
    exact ⟨rfl, rfl, rfl⟩
  · intro hex
    rw [migrate_absent mfs retain hex]
    exact ⟨rfl, rfl, rfl⟩

/-- C3 witness: the amended statement evaluated at retain count -2 on
concrete pruner and migrator states. -/
theorem claim3_witness :
    (cr_remove_metadata_classic pruneFS1 (-2)).rc = Except.error HelperError.badArg
    ∧ (cr_remove_metadata_classic pruneFS1 (-2)).entriesAfter
        = pruneFS1.repodataDir.entries
    ∧ (cr_remove_metadata_classic pruneFS1 (-2)).trace = []
    ∧ (mfsAbsent.oldExists = true →
        (cr_old_metadata_retention mfsAbsent (-2)).ret = Except.error HelperError.badArg
        ∧ (cr_old_metadata_retention mfsAbsent (-2)).newFilesAfter = mfsAbsent.newFiles
        ∧ (cr_old_metadata_retention mfsAbsent (-2)).trace = [FsOp.testOldRepoExists])
    ∧ (mfsAbsent.oldExists = false →
        (cr_old_metadata_retention mfsAbsent (-2)).ret = Except.ok ()
        ∧ (cr_old_metadata_retention mfsAbsent (-2)).newFilesAfter = mfsAbsent.newFiles
        ∧ (cr_old_metadata_retention mfsAbsent (-2)).trace = [FsOp.testOldRepoExists]) :=
  claim3_amended pruneFS1 mfsAbsent (-2) (by decide)

/-- C6: manifest-mode selection with retain count 0 always succeeds — also
when the manifest cannot be parsed, in which case it behaves as if the
manifest were empty — and its blacklist holds exactly the base filenames of
the records that have a location reference and no base-location override. -/
theorem claim6_manifest_mode (parseResult : Option Repomd) :
    (cr_repodata_blacklist parseResult 0).1
      = Except.ok (((parsedRecords parseResult).filterMap recordBasename?).reverse)
    ∧ (∀ nm : Name,
        nm ∈ ((parsedRecords parseResult).filterMap recordBasename?).reverse
          ↔ ∃ rec ∈ parsedRecords parseResult, ∃ href,
              rec.location_href = some href ∧ rec.location_base = none
              ∧ nm = gPathGetBasename href)
    ∧ (parseResult = none → (cr_repodata_blacklist parseResult 0).1 = Except.ok []) := by
  refine ⟨?_, ?_, ?_⟩
  · unfold cr_repodata_blacklist
    rw [if_neg (by omega), if_neg (by omega), repomdFold_eq]
    simp
  · intro nm
    rw [List.mem_reverse, List.mem_filterMap]
    constructor
    · rintro ⟨rec, hrec, hf⟩
      refine ⟨rec, hrec, ?_⟩
      unfold recordBasename? at hf
      cases hh : rec.location_href with
      | none => rw [hh] at hf; simp at hf
      | some href =>
        cases hb : rec.location_base with
        | some b => rw [hh, hb] at hf; simp at hf
        | none =>
          rw [hh, hb] at hf
          simp at hf
          exact ⟨href, rfl, rfl, hf.symm⟩
    · rintro ⟨rec, hrec, href, hh, hb, hnm⟩
      exact ⟨rec, hrec, by simp [recordBasename?, hh, hb, hnm]⟩
  · intro hparse
    subst hparse
    unfold cr_repodata_blacklist
    rw [if_neg (by omega), if_neg (by omega), repomdFold_eq]
    simp [parsedRecords]

/-- C4: whenever the selector succeeds, `repomd.xml` is a member of the
blacklist used by the pruner and a member of the blacklist used by the
migrator; consequently a migrator run never attempts to copy the old
manifest, whatever the filesystem state. -/
theorem claim4_repomd_always_blacklisted (d d' : RepoDir) (retain retain' r₃ : Int)
    (bl bl' : List Name) (mfs : MigrateFS)
    (h1 : prunerBlacklist d retain = Except.ok bl)
    (h2 : migratorBlacklist d' retain' = Except.ok bl') :
    repomdName ∈ bl ∧ repomdName ∈ bl'
    ∧ FsOp.copyFile repomdName ∉ (cr_old_metadata_retention mfs r₃).trace := by
  refine ⟨prunerBlacklist_mem_repomd h1, migratorBlacklist_mem_repomd h2, ?_⟩
  by_cases hex : mfs.oldExists = true
  · cases hbl3 : migratorBlacklist mfs.oldDir r₃ with
    | error e =>
      rw [migrate_selerr mfs r₃ hex e hbl3]
      intro hmem
      rcases List.mem_cons.mp hmem with hEq | hmem2
      · exact FsOp.noConfusion hEq
      · exact copy_notin_classic _ hmem2
    | ok bl₃ =>
      by_cases hopen : mfs.oldDir.openOk = true
      · rw [migrate_run mfs r₃ bl₃ hex hbl3 hopen]
        intro hmem
        rcases List.mem_cons.mp hmem with hEq | hmem2
        · exact FsOp.noConfusion hEq
        · rcases List.mem_append.mp hmem2 with hmem3 | hmem3
          · rcases List.mem_append.mp hmem3 with hmem4 | hmem4
            · exact copy_notin_classic _ hmem4
            · simp at hmem4
          · exact migFold_nocopy_of_mem bl₃ mfs.copyOk mfs.oldContent
              mfs.oldDir.entries mfs.newFiles [] repomdName
              (migratorBlacklist_mem_repomd hbl3) (by simp) hmem3
      · have hopen' : mfs.oldDir.openOk = false := by
          cases hval : mfs.oldDir.openOk
          · rfl
          · exact absurd hval hopen
        rw [migrate_openfail mfs r₃ hex bl₃ hbl3 hopen']
        intro hmem
        rcases List.mem_cons.mp hmem with hEq | hmem2
        · exact FsOp.noConfusion hEq
        · rcases List.mem_append.mp hmem2 with hmem3 | hmem3
          · exact copy_notin_classic _ hmem3
          · simp at hmem3
  · have hex' : mfs.oldExists = false := by
      cases hval : mfs.oldExists
      · rfl
      · exact absurd hval hex
    rw [migrate_absent mfs r₃ hex']
    intro hmem
    simp at hmem

/-- C4 witness: the manifest name in both concrete blacklists, and absent
from a concrete migrator run's copy operations. -/
theorem claim4_witness :
    repomdName ∈ ["repomd.xml".data, "x-primary.xml.gz".data]
    ∧ repomdName ∈ ["repomd.xml".data, "x-primary.xml.gz".data]
    ∧ FsOp.copyFile repomdName ∉ (cr_old_metadata_retention migFS1 1).trace :=
  claim4_repomd_always_blacklisted dirTwoGen dirTwoGen 1 1 1
    ["repomd.xml".data, "x-primary.xml.gz".data]
    ["repomd.xml".data, "x-primary.xml.gz".data]
    migFS1 (by decide) (by decide)

/-- C5: a file already present at the destination is never overwritten by
the migrator: its content is unchanged after any migrator run, no copy is
ever attempted onto it, and the run's result is exactly what it would have
been with an empty destination (the skip is logged only — it never turns
the call into a failure). -/
theorem claim5_never_overwrites (mfs : MigrateFS) (retain : Int) (nm : Name) (c : Nat)
    (h : lookupName nm mfs.newFiles = some c) :
    lookupName nm (cr_old_metadata_retention mfs retain).newFilesAfter = some c
    ∧ FsOp.copyFile nm ∉ (cr_old_metadata_retention mfs retain).trace
    ∧ (cr_old_metadata_retention mfs retain).ret
        = (cr_old_metadata_retention
            ⟨mfs.oldExists, mfs.oldDir, [], mfs.copyOk, mfs.oldContent⟩ retain).ret := by
  by_cases hex : mfs.oldExists = true
  · cases hbl : migratorBlacklist mfs.oldDir retain with
    | error e =>
      rw [migrate_selerr mfs retain hex e hbl,
        migrate_selerr ⟨mfs.oldExists, mfs.oldDir, [], mfs.copyOk, mfs.oldContent⟩
          retain hex e hbl]
      refine ⟨h, ?_, rfl⟩
      intro hmem
      rcases List.mem_cons.mp hmem with hEq | hmem2
      · exact FsOp.noConfusion hEq
      · exact copy_notin_classic _ hmem2
    | ok bl =>
      by_cases hopen : mfs.oldDir.openOk = true
      · rw [migrate_run mfs retain bl hex hbl hopen,
          migrate_run ⟨mfs.oldExists, mfs.oldDir, [], mfs.copyOk, mfs.oldContent⟩
            retain bl hex hbl hopen]
        have hpres := migFold_preserve bl mfs.copyOk mfs.oldContent
          mfs.oldDir.entries mfs.newFiles [] nm c h (by simp)
        refine ⟨hpres.1, ?_, rfl⟩
        intro hmem
        rcases List.mem_cons.mp hmem with hEq | hmem2
        · exact FsOp.noConfusion hEq
        · rcases List.mem_append.mp hmem2 with h3 | h3
          · rcases List.mem_append.mp h3 with h4 | h4
            · exact copy_notin_classic _ h4
            · simp at h4
          · exact hpres.2 h3
      · have hopen' : mfs.oldDir.openOk = false := by
          cases hval : mfs.oldDir.openOk
          · rfl
          · exact absurd hval hopen
        rw [migrate_openfail mfs retain hex bl hbl hopen',
          migrate_openfail ⟨mfs.oldExists, mfs.oldDir, [], mfs.copyOk, mfs.oldContent⟩
            retain hex bl hbl hopen']
        refine ⟨h, ?_, rfl⟩
        intro hmem
        rcases List.mem_cons.mp hmem with hEq | hmem2
        · exact FsOp.noConfusion hEq
        · rcases List.mem_append.mp hmem2 with h3 | h3
          · exact copy_notin_classic _ h3
          · simp at h3
  · have hex' : mfs.oldExists = false := by
      cases hval : mfs.oldExists
      · rfl
      · exact absurd hval hex
    rw [migrate_absent mfs retain hex',
      migrate_absent ⟨mfs.oldExists, mfs.oldDir, [], mfs.copyOk, mfs.oldContent⟩
        retain hex']
    refine ⟨h, ?_, rfl⟩
    intro hmem
    simp at hmem

/-- C5 witness: in a concrete migration, the destination file
`z-other.xml.gz` (content 7) keeps its content, is never the target of a
copy attempt, and the run's result matches the empty-destination run. -/
theorem claim5_witness :
    lookupName "z-other.xml.gz".data
        (cr_old_metadata_retention migFS2 1).newFilesAfter = some 7
    ∧ FsOp.copyFile "z-other.xml.gz".data ∉ (cr_old_metadata_retention migFS2 1).trace
    ∧ (cr_old_metadata_retention migFS2 1).ret
        = (cr_old_metadata_retention
            ⟨migFS2.oldExists, migFS2.oldDir, [], migFS2.copyOk, migFS2.oldContent⟩ 1).ret :=
  claim5_never_overwrites migFS2 1 "z-other.xml.gz".data 7 (by decide)

/-- C9: a filename that ends exactly in a family marker with no further
extension after it is never classified, hence never blacklisted by a
successful classic-mode selection at any retain count; only with at least
one additional (dot-free) extension after the marker does the filename
classify, into exactly that marker's family. -/
theorem claim9_marker_needs_extension (stem ext : Name) (fam : Family)
    (d : RepoDir) (retain : Int) (bl : List Name)
    (hext : '.' ∉ ext)
    (h : (cr_repodata_blacklist_classic d retain).1 = Except.ok bl) :
    classify (stem ++ familyMarker fam) = none
    ∧ (stem ++ familyMarker fam) ∉ bl
    ∧ classify (stem ++ familyMarker fam ++ '.' :: ext) = some fam := by
  refine ⟨classify_append_marker stem fam, ?_, classify_marker_ext stem fam hext⟩
  intro hmem
  unfold cr_repodata_blacklist_classic at h
  split at h
  · have h2 := Except.ok.inj h
    rw [← h2] at hmem
    simp at hmem
  · split at h
    · exact absurd h (by simp)
    · split at h
      · have h2 := Except.ok.inj h
        rw [← h2] at hmem
        rcases mem_core_classified hmem with ⟨fam2, hf⟩
        rw [classify_append_marker stem fam] at hf
        exact Option.noConfusion hf
      · exact absurd h (by simp)

/-- C9 witness: the exact-marker file `a3-primary.xml` is unclassified and
not blacklisted, while `a3-primary.xml.gz` classifies as primary-xml. -/
theorem claim9_witness :
    classify ("a3-".data ++ familyMarker Family.priXml) = none
    ∧ ("a3-".data ++ familyMarker Family.priXml) ∉ ([] : List Name)
    ∧ classify ("a3-".data ++ familyMarker Family.priXml ++ '.' :: "gz".data)
        = some Family.priXml :=
  claim9_marker_needs_extension "a3-".data "gz".data Family.priXml
    dirScenario 1 [] (by decide) (by decide)

/-- C8: once the directory open has succeeded, pruning and migration are
best-effort per file: the run's result is success regardless of which
removals or copies fail, the pruner attempts a removal for every
blacklisted entry of the listing, and the migrator attempts a copy for
every eligible entry (not blacklisted, not already at the destination) —
so one failure never aborts the remaining entries. -/
theorem claim8_per_file_best_effort (fsP : PruneFS) (mfs : MigrateFS) (retain r' : Int)
    (bl bl' : List Name)
    (hbl : prunerBlacklist fsP.repodataDir retain = Except.ok bl)
    (hopen : fsP.repodataDir.openOk = true)
    (hex : mfs.oldExists = true)
    (hbl' : migratorBlacklist mfs.oldDir r' = Except.ok bl')
    (hopen' : mfs.oldDir.openOk = true)
    (hnd : (mfs.oldDir.entries.map DirEntry.name).Nodup) :
    (cr_remove_metadata_classic fsP retain).rc = Except.ok ()
    ∧ removeAttempts (cr_remove_metadata_classic fsP retain).trace
        = (fsP.repodataDir.entries.filter (fun e => decide (e.name ∈ bl))).map
            DirEntry.name
    ∧ (cr_old_metadata_retention mfs r').ret = Except.ok ()
    ∧ copyAttempts (cr_old_metadata_retention mfs r').trace
        = (mfs.oldDir.entries.filter (fun e =>
            !decide (e.name ∈ bl') && (lookupName e.name mfs.newFiles).isNone)).map
            DirEntry.name := by
  rw [prune_run fsP retain bl hbl hopen, migrate_run mfs r' bl' hex hbl' hopen']
  refine ⟨rfl, ?_, rfl, ?_⟩
  · rw [removeAttempts_append, removeAttempts_append, removeAttempts_classic,
      removeAttempts_openDir, removeAttempts_map_removeFile]
    simp
  · show copyAttempts (FsOp.testOldRepoExists ::
        (cr_repodata_blacklist_classic mfs.oldDir r').2 ++ [FsOp.openDir]
          ++ (mfs.oldDir.entries.foldl (migStep bl' mfs.copyOk mfs.oldContent)
              (mfs.newFiles, [])).2)
        = (mfs.oldDir.entries.filter (fun e =>
            !decide (e.name ∈ bl') && (lookupName e.name mfs.newFiles).isNone)).map
            DirEntry.name
    rw [copyAttempts_append, copyAttempts_append, copyAttempts_testOldRepo,
      copyAttempts_classic, copyAttempts_openDir,
      migFold_copyAttempts bl' mfs.copyOk mfs.oldContent mfs.oldDir.entries
        mfs.newFiles mfs.newFiles [] hnd (fun e _ => rfl)]
    simp [copyAttempts]

/-- C8 witness: a run in which one removal and one copy fail still returns
success and still attempts every blacklisted removal and every eligible
copy. -/
theorem claim8_witness :
    (cr_remove_metadata_classic pruneFS2 1).rc = Except.ok ()
    ∧ removeAttempts (cr_remove_metadata_classic pruneFS2 1).trace
        = (pruneFS2.repodataDir.entries.filter (fun e =>
            decide (e.name ∈ ["repomd.xml".data, "x-primary.xml.gz".data]))).map
            DirEntry.name
    ∧ (cr_old_metadata_retention migFS2 1).ret = Except.ok ()
    ∧ copyAttempts (cr_old_metadata_retention migFS2 1).trace
        = (migFS2.oldDir.entries.filter (fun e =>
            !decide (e.name ∈ ["repomd.xml".data, "x-primary.xml.gz".data])
              && (lookupName e.name migFS2.newFiles).isNone)).map DirEntry.name :=
  claim8_per_file_best_effort pruneFS2 migFS2 1 1
    ["repomd.xml".data, "x-primary.xml.gz".data]
    ["repomd.xml".data, "x-primary.xml.gz".data]
    (by decide) (by decide) (by decide) (by decide) (by decide) (by decide)

/-- C1: classic-mode selection with retain count n on any directory listing
(with distinct names) blacklists, per family, exactly
`(number of classified files) - n` names (truncated subtraction, so
`max(k-n,0)`); the files beyond the first n of the family's
mtime-descending list are all blacklisted, the first n are not, and every
blacklisted file of the family is at most as recent as every retained
one. -/
theorem claim1_per_family_retention (d : RepoDir) (n : Nat) (fam : Family)
    (hopen : d.openOk = true)
    (hnd : (d.entries.map DirEntry.name).Nodup) :
    (cr_repodata_blacklist_classic d (n : Int)).1
        = Except.ok (classicBlacklistCore d.entries n)
    ∧ ((classicBlacklistCore d.entries n).filter
        (fun nm => decide (classify nm = some fam))).length
        = (d.entries.filter (fun e => decide (classify e.name = some fam))).length - n
    ∧ (∀ f ∈ (scanFamily d.entries fam).drop n,
        f.path ∈ classicBlacklistCore d.entries n)
    ∧ (∀ g ∈ (scanFamily d.entries fam).take n,
        g.path ∉ classicBlacklistCore d.entries n)
    ∧ (∀ f ∈ (scanFamily d.entries fam).drop n,
        ∀ g ∈ (scanFamily d.entries fam).take n, f.mtime ≤ g.mtime) := by
  refine ⟨classic_ok_nat d n hopen, ?_, ?_, ?_, ?_⟩
  · rw [core_filter_fam, List.length_reverse, famBlock_length]
  · intro f hf
    exact (mem_core_iff f.path d.entries n).mpr
      ⟨fam, List.mem_map_of_mem OldFile.path hf⟩
  · intro g hg hmem
    rcases (mem_core_iff g.path d.entries n).mp hmem with ⟨fam2, hf2⟩
    have hgscan : g ∈ scanFamily d.entries fam := List.take_subset n _ hg
    have hclg : classify g.path = some fam := (mem_scanFamily hgscan).1
    have hclf : classify g.path = some fam2 := mem_famBlock_classified hf2
    have hfameq : fam2 = fam := by
      rw [hclg] at hclf
      exact (Option.some.inj hclf).symm
    rw [hfameq] at hf2
    have hnodupS := scan_paths_nodup fam hnd
    rw [show scanFamily d.entries fam
          = (scanFamily d.entries fam).take n ++ (scanFamily d.entries fam).drop n
        from (List.take_append_drop n _).symm, List.map_append] at hnodupS
    have hdisj := (List.nodup_append.mp hnodupS).2.2
    exact hdisj (List.mem_map_of_mem OldFile.path hg) hf2
  · intro f hf g hg
    have hsorted := scanFamily_sorted d.entries fam
    simp only [sortedDesc] at hsorted
    rw [show scanFamily d.entries fam
          = (scanFamily d.entries fam).take n ++ (scanFamily d.entries fam).drop n
        from (List.take_append_drop n _).symm] at hsorted
    have hcross := (List.pairwise_append.mp hsorted).2.2
    exact hcross g hg f hf

/-- C1 witness: the per-family retention property on a concrete directory
with two primary generations and a manifest, retain count 1. -/
theorem claim1_witness :
    (cr_repodata_blacklist_classic dirTwoGen ((1 : Nat) : Int)).1
        = Except.ok (classicBlacklistCore dirTwoGen.entries 1)
    ∧ ((classicBlacklistCore dirTwoGen.entries 1).filter
        (fun nm => decide (classify nm = some Family.priXml))).length
        = (dirTwoGen.entries.filter
            (fun e => decide (classify e.name = some Family.priXml))).length - 1
    ∧ (∀ f ∈ (scanFamily dirTwoGen.entries Family.priXml).drop 1,
        f.path ∈ classicBlacklistCore dirTwoGen.entries 1)
    ∧ (∀ g ∈ (scanFamily dirTwoGen.entries Family.priXml).take 1,
        g.path ∉ classicBlacklistCore dirTwoGen.entries 1)
    ∧ (∀ f ∈ (scanFamily dirTwoGen.entries Family.priXml).drop 1,
        ∀ g ∈ (scanFamily dirTwoGen.entries Family.priXml).take 1,
          f.mtime ≤ g.mtime) :=
  claim1_per_family_retention dirTwoGen 1 Family.priXml (by decide) (by decide)

/-- C10: pruning is idempotent.  If every removal attempted in a first run
of the pruner succeeds (retain count n, distinct names, directory open
succeeding), a second run with the same retain count returns success,
attempts no removal at all, and leaves the directory contents exactly as
the first run left them. -/
theorem claim10_prune_idempotent (entries : List DirEntry) (rOk : Name → Bool) (n : Nat)
    (hnd : (entries.map DirEntry.name).Nodup)
    (hall : ∀ e ∈ entries,
      e.name ∈ repomdName :: classicBlacklistCore entries n → rOk e.name = true) :
    (cr_remove_metadata_classic ⟨⟨true, entries⟩, rOk⟩ (n : Int)).rc = Except.ok ()
    ∧ (cr_remove_metadata_classic
        ⟨⟨true, (cr_remove_metadata_classic ⟨⟨true, entries⟩, rOk⟩
            (n : Int)).entriesAfter⟩, rOk⟩ (n : Int)).rc = Except.ok ()
    ∧ (cr_remove_metadata_classic
        ⟨⟨true, (cr_remove_metadata_classic ⟨⟨true, entries⟩, rOk⟩
            (n : Int)).entriesAfter⟩, rOk⟩ (n : Int)).entriesAfter
        = (cr_remove_metadata_classic ⟨⟨true, entries⟩, rOk⟩ (n : Int)).entriesAfter
    ∧ removeAttempts (cr_remove_metadata_classic
        ⟨⟨true, (cr_remove_metadata_classic ⟨⟨true, entries⟩, rOk⟩
            (n : Int)).entriesAfter⟩, rOk⟩ (n : Int)).trace = [] := by
  have hbl1 : prunerBlacklist ⟨true, entries⟩ (n : Int)
      = .ok (repomdName :: classicBlacklistCore entries n) :=
    prunerBlacklist_nat ⟨true, entries⟩ n rfl
  have hrun1 := prune_run ⟨⟨true, entries⟩, rOk⟩ (n : Int)
    (repomdName :: classicBlacklistCore entries n) hbl1 rfl
  have hEA : (cr_remove_metadata_classic ⟨⟨true, entries⟩, rOk⟩ (n : Int)).entriesAfter
      = entries.filter
          (fun e => !decide (e.name ∈ repomdName :: classicBlacklistCore entries n)) := by
    rw [hrun1]
    refine List.filter_congr ?_
    intro e he
    by_cases hm : e.name ∈ repomdName :: classicBlacklistCore entries n
    · simp [hm, hall e he hm]
    · simp [hm]
  have key : ∀ fam, (scanFamily (entries.filter
      (fun e => !decide (e.name ∈ repomdName :: classicBlacklistCore entries n)))
      fam).length ≤ n := by
    intro fam
    have hlen1 : (scanFamily (entries.filter
        (fun e => !decide (e.name ∈ repomdName :: classicBlacklistCore entries n)))
        fam).length
        = (((entries.filter
            (fun e => !decide (e.name ∈ repomdName :: classicBlacklistCore entries n))).filter
            (fun e => decide (classify e.name = some fam))).map DirEntry.name).length := by
      rw [(scanFamily_perm _ fam).length_eq, List.length_map, List.length_map]
    rw [hlen1]
    have hsub : ∀ nm ∈ ((entries.filter
        (fun e => !decide (e.name ∈ repomdName :: classicBlacklistCore entries n))).filter
        (fun e => decide (classify e.name = some fam))).map DirEntry.name,
        nm ∈ ((scanFamily entries fam).take n).map OldFile.path := by
      intro nm hnm
      rcases List.mem_map.mp hnm with ⟨e, he, hnmEq⟩
      have he2 := List.mem_filter.mp he
      have hcl : classify e.name = some fam := by simpa using he2.2
      have he3 := List.mem_filter.mp he2.1
      have heEnt : e ∈ entries := he3.1
      have hnotbl : e.name ∉ repomdName :: classicBlacklistCore entries n := by
        simpa using he3.2
      have hin : e.name ∈ (scanFamily entries fam).map OldFile.path := by
        rw [(scan_paths_perm entries fam).mem_iff]
        exact List.mem_map_of_mem DirEntry.name
          (List.mem_filter.mpr ⟨heEnt, by simpa using hcl⟩)
      rw [show scanFamily entries fam
            = (scanFamily entries fam).take n ++ (scanFamily entries fam).drop n
          from (List.take_append_drop n _).symm, List.map_append] at hin
      rcases List.mem_append.mp hin with hia | hib
      · exact hnmEq ▸ hia
      · exact absurd (List.mem_cons_of_mem repomdName
          ((mem_core_iff e.name entries n).mpr ⟨fam, hib⟩)) hnotbl
    have hnodupF : (((entries.filter
        (fun e => !decide (e.name ∈ repomdName :: classicBlacklistCore entries n))).filter
        (fun e => decide (classify e.name = some fam))).map DirEntry.name).Nodup := by
      refine List.Nodup.sublist (List.Sublist.map DirEntry.name ?_) hnd
      exact (List.filter_sublist _).trans (List.filter_sublist entries)
    have hle := (hnodupF.subperm fun a ha => hsub a ha).length_le
    calc (((entries.filter
        (fun e => !decide (e.name ∈ repomdName :: classicBlacklistCore entries n))).filter
        (fun e => decide (classify e.name = some fam))).map DirEntry.name).length
        ≤ (((scanFamily entries fam).take n).map OldFile.path).length := hle
      _ = ((scanFamily entries fam).take n).length := by rw [List.length_map]
      _ ≤ n := List.length_take_le n _
  have hbl2 : prunerBlacklist ⟨true, entries.filter
      (fun e => !decide (e.name ∈ repomdName :: classicBlacklistCore entries n))⟩
      (n : Int) = .ok [repomdName] := by
    rw [prunerBlacklist_nat _ n rfl, core_eq_nil key]
  have hrun2 := prune_run ⟨⟨true, entries.filter
      (fun e => !decide (e.name ∈ repomdName :: classicBlacklistCore entries n))⟩, rOk⟩
    (n : Int) [repomdName] hbl2 rfl
  have hnomatch : ∀ e ∈ entries.filter
      (fun e => !decide (e.name ∈ repomdName :: classicBlacklistCore entries n)),
      decide (e.name ∈ [repomdName]) = false := by
    intro e he
    have he3 := List.mem_filter.mp he
    have hnotbl : e.name ∉ repomdName :: classicBlacklistCore entries n := by
      simpa using he3.2
    simp only [decide_eq_false_iff_not, List.mem_singleton]
    intro hEq
    exact hnotbl (hEq ▸ List.mem_cons_self _ _)
  have hfilter1 : (entries.filter
      (fun e => !decide (e.name ∈ repomdName :: classicBlacklistCore entries n))).filter
      (fun e => !(decide (e.name ∈ [repomdName]) && rOk e.name))
      = entries.filter
        (fun e => !decide (e.name ∈ repomdName :: classicBlacklistCore entries n)) :=
    List.filter_eq_self.mpr fun e he => by
      have h2 := hnomatch e he
      simp only [decide_eq_false_iff_not, List.mem_singleton] at h2
      simp [h2]
  have hfilter2 : (entries.filter
      (fun e => !decide (e.name ∈ repomdName :: classicBlacklistCore entries n))).filter
      (fun e => decide (e.name ∈ [repomdName])) = [] :=
    List.filter_eq_nil_iff.mpr fun e he => by
      have h2 := hnomatch e he
      simp only [decide_eq_false_iff_not, List.mem_singleton] at h2
      simp [h2]
  rw [hEA]
  refine ⟨by rw [hrun1], by rw [hrun2], ?_, ?_⟩
  · rw [hrun2]
    exact hfilter1
  · rw [hrun2]
    simp only [hfilter2, List.map_nil, List.append_nil]
    rw [removeAttempts_append, removeAttempts_classic, removeAttempts_openDir]
    rfl

/-- C10 witness: two consecutive pruner runs on a concrete directory; the
second run removes nothing and changes nothing. -/
theorem claim10_witness :
    (cr_remove_metadata_classic ⟨⟨true, dirTwoGen.entries⟩, fun _ => true⟩
        ((1 : Nat) : Int)).rc = Except.ok ()
    ∧ (cr_remove_metadata_classic
        ⟨⟨true, (cr_remove_metadata_classic ⟨⟨true, dirTwoGen.entries⟩, fun _ => true⟩
            ((1 : Nat) : Int)).entriesAfter⟩, fun _ => true⟩ ((1 : Nat) : Int)).rc
        = Except.ok ()
    ∧ (cr_remove_metadata_classic
        ⟨⟨true, (cr_remove_metadata_classic ⟨⟨true, dirTwoGen.entries⟩, fun _ => true⟩
            ((1 : Nat) : Int)).entriesAfter⟩, fun _ => true⟩ ((1 : Nat) : Int)).entriesAfter
        = (cr_remove_metadata_classic ⟨⟨true, dirTwoGen.entries⟩, fun _ => true⟩
            ((1 : Nat) : Int)).entriesAfter
    ∧ removeAttempts (cr_remove_metadata_classic
        ⟨⟨true, (cr_remove_metadata_classic ⟨⟨true, dirTwoGen.entries⟩, fun _ => true⟩
            ((1 : Nat) : Int)).entriesAfter⟩, fun _ => true⟩ ((1 : Nat) : Int)).trace
        = [] :=
  claim10_prune_idempotent dirTwoGen.entries (fun _ => true) 1 (by decide)
    (fun e _ _ => rfl)

end CreaterepoHelpers
